import Mathlib

/-!
Verification of the pooling and loss computations of `src/models/llama.py`
(attention pooling, mean pooling, Huber/MSE/MAE loss dispatch, and the
regression forward pass), modelled as a shallow embedding over exact
arithmetic (`ℚ` for the purely rational computations, `ℝ` where softmax
and sigmoid require the exponential function).

Tensors are modelled per batch element: a hidden-state sequence is a
`List (Fin d → _)` of per-token vectors, an attention mask is a `List ℕ`
of 0/1 entries, and a batch is a list of such sequences.  Fallible
operations (the shape assertion in the Huber loss, the unconditional use
of `labels` in `forward`) return `Except String _`.
-/

namespace Llama

/-- Per-element Huber loss as computed in `compute_huber_loss`
(lines 74–79): given the absolute error and the threshold, select
`0.5 * abs_error ** 2` when `abs_error <= delta` and
`delta * (abs_error - 0.5 * delta)` otherwise (`torch.where`). -/
def huberElem {α : Type} [LinearOrderedField α] (abs_error delta : α) : α :=
  if abs_error ≤ delta then (1/2) * abs_error ^ 2
  else delta * (abs_error - (1/2) * delta)

/-- Embeds `compute_huber_loss(preds, labels, delta)` (lines 65–81): asserts that
the two shapes coincide (modelled: equal lengths, otherwise an error),
takes `abs_error = |preds - labels|` elementwise, selects the small/large
error branch per element, and returns the mean (`loss.mean()`, i.e. the
elementwise sum divided by the element count). -/
def compute_huber_loss {α : Type} [LinearOrderedField α]
    (preds labels : List α) (delta : α) : Except String α :=
  if preds.length = labels.length then
    .ok ((List.zipWith (fun p l => huberElem |p - l| delta) preds labels).sum
      / (preds.length : α))
  else .error "assertion failed: preds.shape == labels.shape"

/-- Embeds `nn.MSELoss()` with default mean reduction, as used in the `"mse"`
branch of `forward` (lines 116–117): mean of squared differences.  The
shapes are required to coincide, as in every call site of this model. -/
def mseLoss {α : Type} [LinearOrderedField α]
    (preds labels : List α) : Except String α :=
  if preds.length = labels.length then
    .ok ((List.zipWith (fun p l => (p - l) ^ 2) preds labels).sum
      / (preds.length : α))
  else .error "mse shape mismatch"

/-- Embeds `nn.L1Loss()` with default mean reduction, as used in the `"mae"`
branch of `forward` (lines 118–120): mean of absolute differences. -/
def maeLoss {α : Type} [LinearOrderedField α]
    (preds labels : List α) : Except String α :=
  if preds.length = labels.length then
    .ok ((List.zipWith (fun p l => |p - l|) preds labels).sum
      / (preds.length : α))
  else .error "mae shape mismatch"

/-- The loss dispatch of `LlamaRegressionModel.forward` (lines 115–122):
`"mse"` selects MSE, `"mae"` selects MAE, and every other string falls
through to `compute_huber_loss` with the configured delta. -/
def computeLoss {α : Type} [LinearOrderedField α]
    (loss_cat : String) (delta : α) (preds labels : List α) : Except String α :=
  if loss_cat = "mse" then mseLoss preds labels
  else if loss_cat = "mae" then maeLoss preds labels
  else compute_huber_loss preds labels delta

/-- Embeds `mean_pooling(last_hidden_state, attention_mask)` (lines 45–61) for a
single batch element: multiply each token vector by its (cast) mask
entry, sum over the sequence axis, and divide by the mask sum clamped
from below at `1e-9`. -/
def mean_pooling {d : ℕ} (last_hidden_state : List (Fin d → ℚ))
    (attention_mask : List ℕ) : Fin d → ℚ :=
  let sum_embeddings : Fin d → ℚ :=
    (List.zipWith (fun h (m : ℕ) => fun j => h j * (m : ℚ))
      last_hidden_state attention_mask).sum
  let sum_mask : ℚ := max ((attention_mask.map (fun (m : ℕ) => (m : ℚ))).sum)
    (1/1000000000)
  fun j => sum_embeddings j / sum_mask

/-- Per-element Huber loss exactly as the spec words it: per-element loss
`0.5 * e ^ 2` if `|e| ≤ δ`, else `δ * (|e| - 0.5 * δ)`, where
`e = prediction - label`. -/
def huberSpecElem {α : Type} [LinearOrderedField α] (e delta : α) : α :=
  if |e| ≤ delta then (1/2) * e ^ 2
  else delta * (|e| - (1/2) * delta)

/-- Mask-weighted mean exactly as the spec words it: sum of `H·M` over the
sequence, divided by the sum of `M` over the sequence floored at `1e-9`. -/
def mean_pooling_spec {d : ℕ} (last_hidden_state : List (Fin d → ℚ))
    (attention_mask : List ℕ) : Fin d → ℚ :=
  fun j =>
    (List.zipWith (fun h (m : ℕ) => h j * (m : ℚ)) last_hidden_state attention_mask).sum
      / max ((attention_mask.map (fun (m : ℕ) => (m : ℚ))).sum) (1/1000000000)

/-! ## Real-valued part: attention pooling, regression head, forward -/

/-- Embeds `nn.ReLU()`: clamp negatives to zero. -/
noncomputable def relu (x : ℝ) : ℝ := max x 0

/-- Embeds `nn.Sigmoid()` and `torch.sigmoid`: `1 / (1 + exp (-x))`. -/
noncomputable def sigmoid (x : ℝ) : ℝ := 1 / (1 + Real.exp (-x))

/-- Embeds `nn.Dropout(0.1)` on a list of activations: in training mode each
position is either zeroed or rescaled by `1 / (1 - 0.1)` according to an
explicit randomness source `keep`; in evaluation mode it is the
identity. -/
noncomputable def dropoutList (training : Bool) (keep : ℕ → Bool) (xs : List ℝ) : List ℝ :=
  if training then xs.enum.map (fun p => if keep p.1 then p.2 / (1 - 1/10) else 0)
  else xs

/-- Parameters of `AttentionPooling`: the `attn_fc : nn.Linear(hidden_dim, 1)`
weight row and bias. -/
structure AttnParams (d : ℕ) where
  w : Fin d → ℝ
  b : ℝ

/-- Parameters of the `regressor` head: `nn.Linear(2d, d)` then
`nn.Linear(d, 1)` (weights and biases). The input index type
`Fin d ⊕ Fin d` reflects the concatenation of the pooled vector with the
last-token vector. -/
structure RegParams (d : ℕ) where
  w1 : Fin d → (Fin d ⊕ Fin d) → ℝ
  b1 : Fin d → ℝ
  w2 : Fin d → ℝ
  b2 : ℝ

/-- All learned parameters of `LlamaRegressionModel` outside the opaque
backbone. -/
structure Params (d : ℕ) where
  attn : AttnParams d
  reg : RegParams d

/-- The `-1e9` sentinel written by `masked_fill` at padding positions. -/
noncomputable def sentinel : ℝ := -1000000000

/-- Embeds `attn_fc` followed by `ReLU` (lines 26–27), per token. -/
noncomputable def attnScoresRaw {d : ℕ} (P : AttnParams d) (hidden : List (Fin d → ℝ)) :
    List ℝ :=
  hidden.map (fun h => relu ((∑ j, P.w j * h j) + P.b))

/-- Scores after dropout and `masked_fill(attention_mask == 0, -1e9)`
(lines 29–33), for one sequence. -/
noncomputable def attnMaskedScores {d : ℕ} (P : AttnParams d) (hidden : List (Fin d → ℝ))
    (mask : List ℕ) (training : Bool) (keep : ℕ → Bool) : List ℝ :=
  List.zipWith (fun (m : ℕ) s => if m = 0 then sentinel else s) mask
    (dropoutList training keep (attnScoresRaw P hidden))

/-- Embeds `F.softmax(attn_scores, dim=1)` over one sequence. -/
noncomputable def softmax (xs : List ℝ) : List ℝ :=
  xs.map (fun x => Real.exp x / (xs.map Real.exp).sum)

/-- The attention weights of `AttentionPooling.forward` after softmax
(line 36), for one sequence. -/
noncomputable def attnWeights {d : ℕ} (P : AttnParams d) (hidden : List (Fin d → ℝ))
    (mask : List ℕ) (training : Bool) (keep : ℕ → Bool) : List ℝ :=
  softmax (attnMaskedScores P hidden mask training keep)

/-- Embeds `(last_hidden_state * attn_weights).sum(dim=1)` (line 39): the pooled
vector of one sequence. -/
noncomputable def attnPool {d : ℕ} (P : AttnParams d) (hidden : List (Fin d → ℝ))
    (mask : List ℕ) (training : Bool) (keep : ℕ → Bool) : Fin d → ℝ :=
  fun j =>
    (List.zipWith (fun w h => w * h j)
      (attnWeights P hidden mask training keep) hidden).sum

/-- The `regressor` head (lines 92–98) on a concatenated input vector:
linear `2d → d`, `ReLU`, `Dropout(0.1)`, linear `d → 1`, `Sigmoid`. -/
noncomputable def regressorOut {d : ℕ} (R : RegParams d) (v : Fin d ⊕ Fin d → ℝ)
    (training : Bool) (keep : ℕ → Bool) : ℝ :=
  let h1 : Fin d → ℝ := fun k => relu ((∑ j, R.w1 k j * v j) + R.b1 k)
  let h2 : Fin d → ℝ := fun k =>
    if training then (if keep k.val then h1 k / (1 - 1/10) else 0) else h1 k
  sigmoid ((∑ k, R.w2 k * h2 k) + R.b2)

/-- One batch element of `forward` before the loss (lines 108–112):
attention-pool the sequence, take the last token's hidden state
(`outputs.last_hidden_state[:, -1, :]`), concatenate the two vectors and
apply the regression head; `squeeze(-1)` turns the per-element 1-vector
into a scalar. -/
noncomputable def forwardPred {d : ℕ} (P : Params d) (h : List (Fin d → ℝ))
    (m : List ℕ) (training : Bool) (keepA keepR : ℕ → Bool) : ℝ :=
  regressorOut P.reg
    (Sum.elim (attnPool P.attn h m training keepA) (h.getLastD (fun _ => 0)))
    training keepR

/-- The `preds` tensor of `forward` (the `logits` entry of the returned
dictionary): one prediction per (sequence, mask) pair of the batch. -/
noncomputable def forwardLogits {d : ℕ} (P : Params d)
    (hidden : List (List (Fin d → ℝ))) (mask : List (List ℕ))
    (training : Bool) (keepA keepR : ℕ → ℕ → Bool) : List ℝ :=
  (hidden.zip mask).enum.map
    (fun p => forwardPred P p.2.1 p.2.2 training (keepA p.1) (keepR p.1))

/-- Shape discipline the tensor runtime imposes on `forward`'s inputs: the
hidden states and the attention mask describe the same batch of
sequences, and indexing the last token (`[:, -1, :]`) requires a
non-empty sequence axis. -/
def shapesOk {d : ℕ} (hidden : List (List (Fin d → ℝ)))
    (mask : List (List ℕ)) : Bool :=
  (hidden.length == mask.length) &&
    (hidden.zip mask).all (fun p => (p.1.length == p.2.length) && !p.1.isEmpty)

/-- The dictionary returned by `forward` (line 124): it always carries both
a `loss` and a `logits` entry. -/
structure ForwardOutput where
  loss : ℝ
  logits : List ℝ

/-- Embeds `LlamaRegressionModel.forward` (lines 103–124): compute the
predictions, then unconditionally compute a loss from `labels` with the
configured loss category.  There is no `labels is None` guard in the
source: every loss branch dereferences `labels`, so a call without labels
fails instead of returning logits alone. -/
noncomputable def forward {d : ℕ} (P : Params d) (loss_cat : String)
    (delta : ℝ) (hidden : List (List (Fin d → ℝ))) (mask : List (List ℕ))
    (labels : Option (List ℝ)) (training : Bool)
    (keepA keepR : ℕ → ℕ → Bool) : Except String ForwardOutput :=
  if shapesOk hidden mask then
    match labels with
    | none => Except.error "labels is required by every loss branch"
    | some l =>
        (computeLoss loss_cat delta
          (forwardLogits P hidden mask training keepA keepR) l).map
          (fun loss => ⟨loss, forwardLogits P hidden mask training keepA keepR⟩)
  else Except.error "input shape mismatch"

/-- Constant vector in one dimension, used to build concrete pooling inputs. -/
def vq (c : ℚ) : Fin 1 → ℚ := fun _ => c

/-- Real-valued constant vector in one dimension, for concrete inputs. -/
noncomputable def vr (c : ℝ) : Fin 1 → ℝ := fun _ => c

/-- Concrete all-zero parameters in dimension one, for concrete inputs. -/
noncomputable def testParams : Params 1 :=
  ⟨⟨fun _ => 0, 0⟩, ⟨fun _ _ => 0, fun _ => 0, fun _ => 0, 0⟩⟩

section Helpers

theorem huberElem_abs {α : Type} [LinearOrderedField α] (e delta : α) :
    huberElem |e| delta = huberSpecElem e delta := by
  unfold huberElem huberSpecElem
  rw [sq_abs]

theorem huberElem_nonneg {α : Type} [LinearOrderedField α]
    (a delta : α) (ha : 0 ≤ a) (hδ : 0 < delta) : 0 ≤ huberElem a delta := by
  unfold huberElem
  split
  · positivity
  · rename_i h
    have h1 : delta < a := not_le.mp h
    have h2 : 0 ≤ a - (1/2) * delta := by linarith
    exact mul_nonneg hδ.le h2

theorem zipWith_swap_eq {α β : Type} (f g : α → α → β)
    (h : ∀ a b, f a b = g b a) :
    ∀ (p l : List α), List.zipWith f p l = List.zipWith g l p
  | [], [] => rfl
  | [], _ :: _ => rfl
  | _ :: _, [] => rfl
  | a :: p, b :: l => by
      simp only [List.zipWith, h a b]
      exact congrArg _ (zipWith_swap_eq f g h p l)

theorem sum_zipWith_nonneg {α : Type} [LinearOrderedField α]
    (f : α → α → α) (h : ∀ a b, 0 ≤ f a b) :
    ∀ (p l : List α), 0 ≤ (List.zipWith f p l).sum
  | [], [] => le_refl 0
  | [], _ :: _ => le_refl 0
  | _ :: _, [] => le_refl 0
  | a :: p, b :: l => by
      simp only [List.zipWith, List.sum_cons]
      exact add_nonneg (h a b) (sum_zipWith_nonneg f h p l)

theorem pi_list_sum_apply {d : ℕ} (j : Fin d) :
    ∀ (l : List (Fin d → ℚ)), l.sum j = (l.map (fun f => f j)).sum
  | [] => rfl
  | f :: t => by
      simp only [List.sum_cons, List.map_cons, Pi.add_apply]
      exact congrArg (f j + ·) (pi_list_sum_apply j t)

theorem map_apply_zipWith {d : ℕ} (j : Fin d) :
    ∀ (h : List (Fin d → ℚ)) (m : List ℕ),
      (List.zipWith (fun hv (mv : ℕ) => fun k => hv k * (mv : ℚ)) h m).map (fun f => f j)
        = List.zipWith (fun hv (mv : ℕ) => hv j * (mv : ℚ)) h m
  | [], [] => rfl
  | [], _ :: _ => rfl
  | _ :: _, [] => rfl
  | hv :: h, mv :: m => by
      simp only [List.zipWith, List.map_cons]
      exact congrArg _ (map_apply_zipWith j h m)

theorem zipWith_map_fst_snd {β γ δ : Type} (F : β → γ → δ) :
    ∀ (p : List (β × γ)),
      List.zipWith F (p.map Prod.fst) (p.map Prod.snd)
        = p.map (fun q => F q.1 q.2)
  | [] => rfl
  | q :: t => by
      simp only [List.map_cons, List.zipWith]
      exact congrArg _ (zipWith_map_fst_snd F t)

end Helpers

section SoftmaxHelpers

theorem sum_map_div (l : List ℝ) (c : ℝ) :
    (l.map (fun x => x / c)).sum = l.sum / c := by
  induction l with
  | nil => simp
  | cons a t ih => simp [List.sum_cons, ih, add_div]

theorem exp_list_sum_pos (xs : List ℝ) (h : xs ≠ []) :
    0 < (xs.map Real.exp).sum := by
  match xs, h with
  | a :: t, _ =>
    simp only [List.map_cons, List.sum_cons]
    have h1 : 0 ≤ (t.map Real.exp).sum := by
      refine List.sum_nonneg ?_
      intro x hx
      obtain ⟨y, _, rfl⟩ := List.mem_map.mp hx
      exact (Real.exp_pos y).le
    linarith [Real.exp_pos a]

theorem softmax_nonneg_sum_one (xs : List ℝ) (h : xs ≠ []) :
    (∀ w ∈ softmax xs, 0 ≤ w) ∧ (softmax xs).sum = 1 := by
  have hS := exp_list_sum_pos xs h
  constructor
  · intro w hw
    obtain ⟨x, _, rfl⟩ := List.mem_map.mp hw
    exact div_nonneg (Real.exp_pos x).le hS.le
  · unfold softmax
    have hmm : xs.map (fun x => Real.exp x / (xs.map Real.exp).sum)
        = (xs.map Real.exp).map (fun y => y / (xs.map Real.exp).sum) := by
      rw [List.map_map]
      rfl
    rw [hmm, sum_map_div, div_self hS.ne']

theorem length_dropoutList (training : Bool) (keep : ℕ → Bool) (xs : List ℝ) :
    (dropoutList training keep xs).length = xs.length := by
  unfold dropoutList
  split <;> simp

theorem length_attnMaskedScores {d : ℕ} (P : AttnParams d)
    (hidden : List (Fin d → ℝ)) (mask : List ℕ)
    (training : Bool) (keep : ℕ → Bool) :
    (attnMaskedScores P hidden mask training keep).length
      = min mask.length hidden.length := by
  unfold attnMaskedScores
  rw [List.length_zipWith, length_dropoutList]
  unfold attnScoresRaw
  rw [List.length_map]

end SoftmaxHelpers

section UniformHelpers

theorem zipWith_mask_all_zero :
    ∀ (mask : List ℕ) (s : List ℝ), (∀ m ∈ mask, m = 0) →
      mask.length = s.length →
      List.zipWith (fun (m : ℕ) x => if m = 0 then sentinel else x) mask s
        = List.replicate mask.length sentinel
  | [], [], _, _ => rfl
  | [], _ :: _, _, h => by simp at h
  | _ :: _, [], _, h => by simp at h
  | m :: t, x :: s, hall, hlen => by
      have hm : m = 0 := hall m (List.mem_cons_self m t)
      have ht : ∀ m' ∈ t, m' = 0 := fun m' hm' => hall m' (List.mem_cons_of_mem m hm')
      have hl : t.length = s.length := by simpa using hlen
      simp only [List.zipWith, List.length_cons, List.replicate, hm, if_pos]
      exact congrArg _ (zipWith_mask_all_zero t s ht hl)

theorem softmax_replicate (n : ℕ) (c : ℝ) :
    softmax (List.replicate n c) = List.replicate n (1 / (n : ℝ)) := by
  unfold softmax
  have hsum : ((List.replicate n c).map Real.exp).sum = (n : ℝ) * Real.exp c := by
    rw [List.map_replicate, List.sum_replicate, nsmul_eq_mul]
  rw [hsum, List.map_replicate]
  have hval : Real.exp c / ((n : ℝ) * Real.exp c) = 1 / (n : ℝ) := by
    rw [mul_comm, ← div_div, div_self (Real.exp_ne_zero c)]
  rw [hval]

theorem sum_zipWith_replicate_mul {d : ℕ} (j : Fin d) (c : ℝ) :
    ∀ (l : List (Fin d → ℝ)),
      (List.zipWith (fun w h => w * h j) (List.replicate l.length c) l).sum
        = c * (l.map (fun h => h j)).sum
  | [] => by simp
  | h :: t => by
      simp only [List.length_cons, List.replicate_succ, List.zipWith,
        List.sum_cons, List.map_cons, mul_add]
      exact congrArg _ (sum_zipWith_replicate_mul j c t)

end UniformHelpers

section ForwardHelpers

theorem sigmoid_pos_lt_one (x : ℝ) : 0 < sigmoid x ∧ sigmoid x < 1 := by
  unfold sigmoid
  have h1 : 0 < 1 + Real.exp (-x) := by positivity
  constructor
  · positivity
  · rw [div_lt_one h1]
    linarith [Real.exp_pos (-x)]

theorem forwardPred_bounds {d : ℕ} (P : Params d) (h : List (Fin d → ℝ))
    (m : List ℕ) (training : Bool) (keepA keepR : ℕ → Bool) :
    0 < forwardPred P h m training keepA keepR
    ∧ forwardPred P h m training keepA keepR < 1 :=
  sigmoid_pos_lt_one _

theorem length_forwardLogits {d : ℕ} (P : Params d)
    (hidden : List (List (Fin d → ℝ))) (mask : List (List ℕ))
    (training : Bool) (keepA keepR : ℕ → ℕ → Bool) :
    (forwardLogits P hidden mask training keepA keepR).length
      = min hidden.length mask.length := by
  unfold forwardLogits
  simp [List.length_zip]

theorem shapesOk_batch_length {d : ℕ} (hidden : List (List (Fin d → ℝ)))
    (mask : List (List ℕ)) (h : shapesOk hidden mask = true) :
    hidden.length = mask.length := by
  unfold shapesOk at h
  simp only [Bool.and_eq_true, beq_iff_eq] at h
  exact h.1

theorem computeLoss_isOk {α : Type} [LinearOrderedField α] (loss_cat : String)
    (delta : α) (preds labels : List α) (h : preds.length = labels.length) :
    ∃ v, computeLoss loss_cat delta preds labels = .ok v := by
  unfold computeLoss
  split_ifs
  · unfold mseLoss
    rw [if_pos h]
    exact ⟨_, rfl⟩
  · unfold maeLoss
    rw [if_pos h]
    exact ⟨_, rfl⟩
  · unfold compute_huber_loss
    rw [if_pos h]
    exact ⟨_, rfl⟩

theorem forwardPred_inference {d : ℕ} (P : Params d) (h : List (Fin d → ℝ))
    (m : List ℕ) (kA kR kA' kR' : ℕ → Bool) :
    forwardPred P h m false kA kR = forwardPred P h m false kA' kR' := rfl

theorem forward_some {d : ℕ} (P : Params d) (loss_cat : String) (delta : ℝ)
    (hidden : List (List (Fin d → ℝ))) (mask : List (List ℕ)) (l : List ℝ)
    (training : Bool) (keepA keepR : ℕ → ℕ → Bool) :
    forward P loss_cat delta hidden mask (some l) training keepA keepR
      = if shapesOk hidden mask then
          (computeLoss loss_cat delta
            (forwardLogits P hidden mask training keepA keepR) l).map
            (fun loss => ⟨loss, forwardLogits P hidden mask training keepA keepR⟩)
        else Except.error "input shape mismatch" := rfl

end ForwardHelpers

/-- C2: for predictions and labels of equal shape and any threshold
`delta > 0`, `compute_huber_loss` returns the mean over elements of the
spec's per-element formula (`0.5·e²` when `|e| ≤ δ`, else
`δ·(|e| − 0.5·δ)`, with `e = prediction − label`), and at `|e| = delta`
the two branch formulas agree: `0.5·δ² = δ·(δ − 0.5·δ)`. -/
theorem huber_matches_spec_formula (preds labels : List ℚ) (delta : ℚ)
    (hlen : preds.length = labels.length) (hδ : 0 < delta) :
    compute_huber_loss preds labels delta =
      .ok ((List.zipWith (fun p l => huberSpecElem (p - l) delta) preds labels).sum
        / (preds.length : ℚ))
    ∧ (1/2) * delta ^ 2 = delta * (delta - (1/2) * delta) := by
  constructor
  · unfold compute_huber_loss
    rw [if_pos hlen]
    simp only [huberElem_abs]
  · ring

/-- Witness for C2 at `preds = [1]`, `labels = [0]`, `delta = 1`. -/
theorem huber_matches_spec_formula_witness :
    (([(1:ℚ)]).length = ([(0:ℚ)]).length ∧ (0:ℚ) < 1) ∧
    (compute_huber_loss [(1:ℚ)] [0] 1 =
      .ok ((List.zipWith (fun p l => huberSpecElem (p - l) (1:ℚ)) [(1:ℚ)] [0]).sum
        / (([(1:ℚ)]).length : ℚ))
    ∧ (1/2) * (1:ℚ) ^ 2 = 1 * (1 - (1/2) * 1)) :=
  ⟨⟨rfl, by norm_num⟩, huber_matches_spec_formula [1] [0] 1 rfl (by norm_num)⟩

/-- C3: any loss category string other than `"mse"` and `"mae"` makes the
dispatch of `forward` compute the loss with the Huber branch
(`compute_huber_loss` with the configured delta); no validation of the
string happens. -/
theorem loss_dispatch_defaults_to_huber (loss_cat : String) (delta : ℚ)
    (preds labels : List ℚ)
    (h1 : loss_cat ≠ "mse") (h2 : loss_cat ≠ "mae") :
    computeLoss loss_cat delta preds labels = compute_huber_loss preds labels delta := by
  unfold computeLoss
  rw [if_neg h1, if_neg h2]

/-- Witness for C3 at the unrecognized category string `"hubber"`. -/
theorem loss_dispatch_defaults_to_huber_witness :
    (("hubber" ≠ "mse") ∧ ("hubber" ≠ "mae")) ∧
    computeLoss "hubber" (1:ℚ) [1] [0] = compute_huber_loss [(1:ℚ)] [0] 1 :=
  ⟨⟨by decide, by decide⟩,
    loss_dispatch_defaults_to_huber "hubber" 1 [1] [0] (by decide) (by decide)⟩

/-- C4: `compute_huber_loss` fails with its assertion error exactly when
the shapes of `preds` and `labels` differ; for equal shapes it returns a
value and no error is possible (in the `Except` embedding a failing call
produces no partial result). -/
theorem huber_errors_iff_shape_mismatch (preds labels : List ℚ) (delta : ℚ) :
    (∃ e, compute_huber_loss preds labels delta = .error e)
      ↔ preds.length ≠ labels.length := by
  unfold compute_huber_loss
  by_cases h : preds.length = labels.length
  · simp [h]
  · simp [h]

/-- C10: `compute_huber_loss` is symmetric in its first two arguments (it
depends on them only through `|preds − labels|`), and for equal shapes,
a nonempty batch and `delta > 0` its value is non-negative. -/
theorem huber_symmetric_and_nonneg (preds labels : List ℚ) (delta : ℚ)
    (hlen : preds.length = labels.length) (hne : preds ≠ []) (hδ : 0 < delta) :
    compute_huber_loss preds labels delta = compute_huber_loss labels preds delta
    ∧ ∃ v, compute_huber_loss preds labels delta = .ok v ∧ 0 ≤ v := by
  constructor
  · unfold compute_huber_loss
    rw [if_pos hlen, if_pos hlen.symm]
    have hz : List.zipWith (fun p l => huberElem |p - l| delta) preds labels
        = List.zipWith (fun l p => huberElem |l - p| delta) labels preds := by
      refine zipWith_swap_eq _ _ (fun a b => ?_) preds labels
      rw [abs_sub_comm]
    rw [hz, hlen]
  · refine ⟨(List.zipWith (fun p l => huberElem |p - l| delta) preds labels).sum
        / (preds.length : ℚ), ?_, ?_⟩
    · unfold compute_huber_loss
      rw [if_pos hlen]
    · refine div_nonneg ?_ (by positivity)
      exact sum_zipWith_nonneg _ (fun a b => huberElem_nonneg _ _ (abs_nonneg _) hδ)
        preds labels

/-- Witness for C10 at `preds = [1, 0]`, `labels = [0, 2]`, `delta = 1`. -/
theorem huber_symmetric_and_nonneg_witness :
    (([(1:ℚ), 0]).length = ([(0:ℚ), 2]).length ∧ ([(1:ℚ), 0]) ≠ [] ∧ (0:ℚ) < 1) ∧
    (compute_huber_loss [(1:ℚ), 0] [0, 2] 1 = compute_huber_loss [(0:ℚ), 2] [1, 0] 1
    ∧ ∃ v, compute_huber_loss [(1:ℚ), 0] [0, 2] 1 = .ok v ∧ 0 ≤ v) :=
  ⟨⟨rfl, by decide, by norm_num⟩,
    huber_symmetric_and_nonneg [1, 0] [0, 2] 1 rfl (by decide) (by norm_num)⟩

/-- C6: `mean_pooling` computes exactly the spec's mask-weighted mean
`sum(H·M over sequence) / max(sum(M over sequence), 1e-9)`, and it is
invariant under any permutation of the (token vector, mask entry) pairs:
shuffling which positions are masked, keeping the pairing of values and
mask bits, leaves the pooled vector unchanged. -/
theorem mean_pooling_formula_and_perm_invariant {d : ℕ}
    (hidden : List (Fin d → ℚ)) (mask : List ℕ)
    (p1 p2 : List ((Fin d → ℚ) × ℕ)) (hperm : p1.Perm p2) :
    mean_pooling hidden mask = mean_pooling_spec hidden mask
    ∧ mean_pooling (p1.map Prod.fst) (p1.map Prod.snd)
        = mean_pooling (p2.map Prod.fst) (p2.map Prod.snd) := by
  have key : ∀ (h : List (Fin d → ℚ)) (m : List ℕ),
      mean_pooling h m = mean_pooling_spec h m := by
    intro h m
    funext j
    simp only [mean_pooling, mean_pooling_spec]
    rw [pi_list_sum_apply j, map_apply_zipWith j]
  refine ⟨key hidden mask, ?_⟩
  rw [key, key]
  funext j
  unfold mean_pooling_spec
  rw [zipWith_map_fst_snd, zipWith_map_fst_snd]
  rw [(hperm.map (fun q => q.1 j * (q.2 : ℚ))).sum_eq]
  rw [List.map_map, List.map_map]
  rw [(hperm.map ((fun (m : ℕ) => (m : ℚ)) ∘ Prod.snd)).sum_eq]

/-- Witness for C6 at a two-token sequence with the mask pairs swapped. -/
theorem mean_pooling_formula_and_perm_invariant_witness :
    ([(vq 2, 1), (vq 5, 0)]).Perm [(vq 5, 0), (vq 2, 1)] ∧
    (mean_pooling [vq 3] [1] = mean_pooling_spec [vq 3] [1]
    ∧ mean_pooling (([(vq 2, 1), (vq 5, 0)]).map Prod.fst)
        (([(vq 2, 1), (vq 5, 0)]).map Prod.snd)
      = mean_pooling (([(vq 5, 0), (vq 2, 1)]).map Prod.fst)
        (([(vq 5, 0), (vq 2, 1)]).map Prod.snd)) :=
  ⟨List.Perm.swap _ _ _,
    mean_pooling_formula_and_perm_invariant [vq 3] [1] _ _ (List.Perm.swap _ _ _)⟩

/-- C5: with dropout disabled and a mask that leaves at least one position
of the sequence unmasked, the attention weights computed inside
`AttentionPooling.forward` after softmax are all non-negative and sum to
`1` exactly along the sequence axis (hence within the `1e-6` tolerance);
batch elements are processed independently, so this holds for every batch
element. -/
theorem attn_weights_nonneg_sum_one {d : ℕ} (P : AttnParams d)
    (hidden : List (Fin d → ℝ)) (mask : List ℕ) (keep : ℕ → Bool)
    (hlen : mask.length = hidden.length) (hmask : ∃ m ∈ mask, m ≠ 0) :
    (∀ w ∈ attnWeights P hidden mask false keep, 0 ≤ w)
    ∧ (attnWeights P hidden mask false keep).sum = 1
    ∧ |(attnWeights P hidden mask false keep).sum - 1| ≤ 1/1000000 := by
  obtain ⟨m, hm, _⟩ := hmask
  have hmne : mask ≠ [] := List.ne_nil_of_mem hm
  have hpos : 0 < (attnMaskedScores P hidden mask false keep).length := by
    rw [length_attnMaskedScores, hlen, min_self]
    rw [← hlen]
    exact List.length_pos.mpr hmne
  have hne : attnMaskedScores P hidden mask false keep ≠ [] :=
    List.length_pos.mp hpos
  obtain ⟨h1, h2⟩ := softmax_nonneg_sum_one _ hne
  refine ⟨h1, h2, ?_⟩
  have h2' : (attnWeights P hidden mask false keep).sum = 1 := h2
  rw [h2']
  norm_num

/-- Witness for C5 at a two-token sequence with mask `[1, 0]`. -/
theorem attn_weights_nonneg_sum_one_witness :
    (([1, 0] : List ℕ).length = ([vr 2, vr 3]).length
      ∧ ∃ m ∈ ([1, 0] : List ℕ), m ≠ 0)
    ∧ ((∀ w ∈ attnWeights testParams.attn [vr 2, vr 3] [1, 0] false
          (fun _ => true), 0 ≤ w)
      ∧ (attnWeights testParams.attn [vr 2, vr 3] [1, 0] false
          (fun _ => true)).sum = 1
      ∧ |(attnWeights testParams.attn [vr 2, vr 3] [1, 0] false
          (fun _ => true)).sum - 1| ≤ 1/1000000) :=
  ⟨⟨rfl, by decide⟩,
    attn_weights_nonneg_sum_one testParams.attn [vr 2, vr 3] [1, 0]
      (fun _ => true) rfl (by decide)⟩

/-- C9: for a sequence whose mask row is entirely zero, every score is
overwritten with the sentinel `-1e9` (regardless of dropout), so the
softmax weights are exactly uniform (`1/sequence_length` everywhere) and
the pooled vector is the plain arithmetic mean of the hidden states; the
computation is total, so no error is raised. -/
theorem attn_all_masked_uniform {d : ℕ} (P : AttnParams d)
    (hidden : List (Fin d → ℝ)) (mask : List ℕ)
    (training : Bool) (keep : ℕ → Bool)
    (hall : ∀ m ∈ mask, m = 0) (hlen : mask.length = hidden.length)
    (hpos : 0 < hidden.length) :
    attnWeights P hidden mask training keep
        = List.replicate hidden.length (1 / (hidden.length : ℝ))
    ∧ ∀ j, attnPool P hidden mask training keep j
        = (hidden.map (fun h => h j)).sum / (hidden.length : ℝ) := by
  have hdlen : mask.length = (dropoutList training keep (attnScoresRaw P hidden)).length := by
    rw [length_dropoutList]
    unfold attnScoresRaw
    rw [List.length_map, hlen]
  have hmasked : attnMaskedScores P hidden mask training keep
      = List.replicate hidden.length sentinel := by
    unfold attnMaskedScores
    rw [zipWith_mask_all_zero mask _ hall hdlen, hlen]
  have hweights : attnWeights P hidden mask training keep
      = List.replicate hidden.length (1 / (hidden.length : ℝ)) := by
    unfold attnWeights
    rw [hmasked, softmax_replicate _ _]
  refine ⟨hweights, fun j => ?_⟩
  unfold attnPool
  rw [hweights, sum_zipWith_replicate_mul j _ hidden, one_div_mul_eq_div]

/-- Witness for C9 at a two-token sequence with an all-zero mask. -/
theorem attn_all_masked_uniform_witness :
    ((∀ m ∈ ([0, 0] : List ℕ), m = 0)
      ∧ ([0, 0] : List ℕ).length = ([vr 1, vr 5]).length
      ∧ 0 < ([vr 1, vr 5]).length)
    ∧ (attnWeights testParams.attn [vr 1, vr 5] [0, 0] true (fun _ => true)
        = List.replicate ([vr 1, vr 5]).length (1 / (([vr 1, vr 5]).length : ℝ))
      ∧ ∀ j, attnPool testParams.attn [vr 1, vr 5] [0, 0] true (fun _ => true) j
        = (([vr 1, vr 5]).map (fun h => h j)).sum / (([vr 1, vr 5]).length : ℝ)) :=
  ⟨⟨by decide, rfl, by decide⟩,
    attn_all_masked_uniform testParams.attn [vr 1, vr 5] [0, 0] true
      (fun _ => true) (by decide) rfl (by decide)⟩

/-- C7: every entry of the prediction array returned by the regression
head (the `logits` field) lies strictly inside the open interval
`(0, 1)`, because the final activation is a sigmoid; and (squeeze) the
output has shape `(batch,)`: one scalar per batch element. -/
theorem logits_in_open_unit_interval {d : ℕ} (P : Params d)
    (hidden : List (List (Fin d → ℝ))) (mask : List (List ℕ))
    (training : Bool) (keepA keepR : ℕ → ℕ → Bool) (x : ℝ)
    (hx : x ∈ forwardLogits P hidden mask training keepA keepR) :
    (0 < x ∧ x < 1)
    ∧ (hidden.length = mask.length →
        (forwardLogits P hidden mask training keepA keepR).length
          = hidden.length) := by
  constructor
  · obtain ⟨p, _, rfl⟩ := List.mem_map.mp hx
    exact forwardPred_bounds P p.2.1 p.2.2 training (keepA p.1) (keepR p.1)
  · intro hl
    rw [length_forwardLogits, hl, min_self]

/-- Witness for C7: the single logit of a concrete one-element batch. -/
theorem logits_in_open_unit_interval_witness :
    (forwardPred testParams [vr 1] [1] false ((fun _ _ => true) 0)
        ((fun _ _ => true) 0)
      ∈ forwardLogits testParams [[vr 1]] [[1]] false (fun _ _ => true)
        (fun _ _ => true))
    ∧ ((0 < forwardPred testParams [vr 1] [1] false ((fun _ _ => true) 0)
          ((fun _ _ => true) 0)
        ∧ forwardPred testParams [vr 1] [1] false ((fun _ _ => true) 0)
          ((fun _ _ => true) 0) < 1)
      ∧ (([[vr 1]] : List (List (Fin 1 → ℝ))).length
            = ([[1]] : List (List ℕ)).length →
          (forwardLogits testParams [[vr 1]] [[1]] false (fun _ _ => true)
            (fun _ _ => true)).length
            = ([[vr 1]] : List (List (Fin 1 → ℝ))).length)) := by
  have hmem : forwardPred testParams [vr 1] [1] false ((fun _ _ => true) 0)
      ((fun _ _ => true) 0)
      ∈ forwardLogits testParams [[vr 1]] [[1]] false (fun _ _ => true)
        (fun _ _ => true) := List.Mem.head _
  exact ⟨hmem,
    logits_in_open_unit_interval testParams [[vr 1]] [[1]] false
      (fun _ _ => true) (fun _ _ => true) _ hmem⟩

/-- C8: at inference time (dropout disabled, `training = false`) `forward`
is a deterministic function of its inputs and parameters — it does not
depend on the dropout randomness sources, so two invocations on identical
inputs with the same weights produce identical outputs. -/
theorem forward_deterministic_at_inference {d : ℕ} (P : Params d)
    (loss_cat : String) (delta : ℝ) (hidden : List (List (Fin d → ℝ)))
    (mask : List (List ℕ)) (labels : Option (List ℝ))
    (keepA keepR keepA' keepR' : ℕ → ℕ → Bool) :
    forward P loss_cat delta hidden mask labels false keepA keepR
      = forward P loss_cat delta hidden mask labels false keepA' keepR' := rfl

/-- C1 amended: `forward` always returns both a `loss` and a `logits`
field when it succeeds, and it requires labels: for well-shaped inputs
with labels supplied it succeeds with `logits` of shape `(batch,)`, and
when labels are absent the call fails (every loss branch dereferences
`labels`) instead of succeeding with logits alone. -/
theorem forward_requires_labels {d : ℕ} (P : Params d) (loss_cat : String)
    (delta : ℝ) (hidden : List (List (Fin d → ℝ))) (mask : List (List ℕ))
    (labels : Option (List ℝ)) (training : Bool)
    (keepA keepR : ℕ → ℕ → Bool) :
    (labels = none →
      ∃ e, forward P loss_cat delta hidden mask labels training keepA keepR
        = .error e)
    ∧ (∀ l, labels = some l → shapesOk hidden mask = true →
        l.length = hidden.length →
        ∃ out, forward P loss_cat delta hidden mask labels training keepA keepR
            = .ok out
          ∧ out.logits = forwardLogits P hidden mask training keepA keepR
          ∧ out.logits.length = hidden.length) := by
  constructor
  · rintro rfl
    unfold forward
    by_cases hs : shapesOk hidden mask = true
    · rw [if_pos hs]
      exact ⟨_, rfl⟩
    · rw [if_neg hs]
      exact ⟨_, rfl⟩
  · rintro l rfl hs hlen
    rw [forward_some, if_pos hs]
    have hplen : (forwardLogits P hidden mask training keepA keepR).length
        = l.length := by
      rw [length_forwardLogits, ← shapesOk_batch_length hidden mask hs,
        min_self, hlen]
    obtain ⟨v, hv⟩ := computeLoss_isOk loss_cat delta _ l hplen
    refine ⟨⟨v, forwardLogits P hidden mask training keepA keepR⟩, ?_, rfl, ?_⟩
    · rw [hv]
      rfl
    · rw [length_forwardLogits, ← shapesOk_batch_length hidden mask hs,
        min_self]

/-- C1 counterexample: at a concrete one-element batch, calling `forward`
without labels does not succeed and does not return logits — it fails in
the loss computation, which has no `labels is None` guard. -/
theorem forward_without_labels_fails :
    forward testParams "huber" 1 [[vr 1]] [[1]] none false
      (fun _ _ => true) (fun _ _ => true)
      = Except.error "labels is required by every loss branch" := rfl

/-- Witness for C1: both branches at concrete inputs — no labels yields an
error, labels of batch shape yield a successful output with one logit. -/
theorem forward_requires_labels_witness :
    ((none : Option (List ℝ)) = none
      ∧ ∃ e, forward testParams "huber" 1 [[vr 1]] [[1]] none false
          (fun _ _ => true) (fun _ _ => true) = .error e)
    ∧ ((some [(1:ℝ)/2] = some [(1:ℝ)/2]
        ∧ shapesOk [[vr 1]] ([[1]] : List (List ℕ)) = true
        ∧ ([(1:ℝ)/2]).length = ([[vr 1]] : List (List (Fin 1 → ℝ))).length)
      ∧ ∃ out, forward testParams "huber" 1 [[vr 1]] [[1]] (some [(1:ℝ)/2])
            false (fun _ _ => true) (fun _ _ => true) = .ok out
          ∧ out.logits = forwardLogits testParams [[vr 1]] [[1]] false
              (fun _ _ => true) (fun _ _ => true)
          ∧ out.logits.length = ([[vr 1]] : List (List (Fin 1 → ℝ))).length) :=
  ⟨⟨rfl, (forward_requires_labels testParams "huber" 1 [[vr 1]] [[1]] none
      false (fun _ _ => true) (fun _ _ => true)).1 rfl⟩,
    ⟨⟨rfl, rfl, rfl⟩,
      (forward_requires_labels testParams "huber" 1 [[vr 1]] [[1]]
        (some [(1:ℝ)/2]) false (fun _ _ => true) (fun _ _ => true)).2
        [(1:ℝ)/2] rfl rfl rfl⟩⟩

end Llama
